import Mathlib

/-!
# Verification of the Kyiv power-outage schedule monitor

Shallow embedding of `src/main.py` (light-monitor-kyiv): the slot
normalizers (`parse_github_day`, `extract_github`, `extract_yasno`), the
period compressor (`slots_to_periods`), the source merger match logic
(`format_msg`), the change-detector equality (`main`, Python `==` on the
serialized snapshot dictionaries), and the hour formatter
(`format_hours_full`).

Conventions of the embedding:
* Python dicts are association lists `List (κ × α)` with first-match
  lookup (`lookupD`); Python dict equality is modelled by the recursive
  boolean tests `dayEq`/`dateMapEq`/`groupMapEq`/`cacheEq`.
* Python floats that are always multiples of 0.5 (`hours`) are `ℚ`.
* Statuses are the literal strings `"normal"`, `"pending"`,
  `"emergency"` as in the source.
* `datetime` values kept only for display (the `"date"` field of a day
  record) are omitted; the GitHub day keys are kept as the unix
  timestamps themselves (the source renders them to a Kyiv date string
  with `strftime`, a display-only injective-per-day rendering).
-/

namespace LightMonitor

/-- First-match association-list lookup: Python `d.get(k)`. -/
def lookupD {α : Type} (l : List (String × α)) (k : String) : Option α :=
  (l.find? (fun p => p.1 == k)).map (fun p => p.2)

/-- Nat-keyed variant, for the GitHub feed whose day keys are unix
timestamps (`sorted(fact.keys(), key=int)` sorts them as integers). -/
def lookupN {α : Type} (l : List (ℕ × α)) (k : ℕ) : Option α :=
  (l.find? (fun p => p.1 == k)).map (fun p => p.2)

/-- Python `f"{n:02d}"` for a natural number. -/
def pad2 (n : ℕ) : String :=
  if n < 10 then "0" ++ toString n else toString n

/-- `format_slot_time` (main.py lines 67-70): slot index to `HH:MM`,
with slot 48 (minute 1440) rendered `24:00`. -/
def format_slot_time (slot : ℕ) : String :=
  let mins := slot * 30
  let h := mins / 60
  let m := mins % 60
  if h = 24 then "24:00" else pad2 h ++ ":" ++ pad2 m

/-- One entry of the list returned by `slots_to_periods`
(main.py lines 193-206): the dict
`{"start": …, "end": …, "is_on": …, "hours": …}`.  The Python key
`"end"` is the field `stop` (`end` is a Lean keyword). -/
structure Period where
  start : String
  stop : String
  is_on : Bool
  hours : ℚ
  deriving Repr, DecidableEq

/-- Builds the period dict pushed by `slots_to_periods` for the run of
value `curr` on slot indices `[s, e)`: `hours = (e - s) * 0.5`. -/
def mkPeriod (s e : ℕ) (curr : Bool) : Period :=
  { start := format_slot_time s
    stop := format_slot_time e
    is_on := curr
    hours := ((e - s : ℕ) : ℚ) / 2 }

/-- The loop of `slots_to_periods` (main.py lines 192-206): `rest` is
the not-yet-scanned suffix `slots[i:]`, `curr` the current run value,
`s` the run's start index, `acc` the periods already emitted.  On
exhaustion the final run is closed at index `i` (= `len(slots)`). -/
def stpAux : List Bool → Bool → ℕ → ℕ → List Period → List Period
  | [], curr, s, i, acc => acc ++ [mkPeriod s i curr]
  | b :: rest, curr, s, i, acc =>
      if b ≠ curr then stpAux rest b i (i + 1) (acc ++ [mkPeriod s i curr])
      else stpAux rest curr s (i + 1) acc

/-- `slots_to_periods` (main.py lines 187-207). -/
def slots_to_periods : List Bool → List Period
  | [] => []
  | b :: rest => stpAux rest b 0 1 []

/-- Number of slots a period spans: `hours = (end_slot - start_slot) * 0.5`,
so the span is `2 * hours`. -/
def periodSlots (p : Period) : ℕ := (2 * p.hours).num.toNat

/-- Re-expansion of a period list back into a timeline: each period
contributes `end_slot - start_slot` (= `2 * hours`) copies of its
`is_on` value, in order. -/
def expandPeriods (ps : List Period) : List Bool :=
  ps.flatMap (fun p => List.replicate (periodSlots p) p.is_on)

theorem mkPeriod_is_on (s e : ℕ) (c : Bool) : (mkPeriod s e c).is_on = c := rfl

theorem periodSlots_mkPeriod (s e : ℕ) (c : Bool) :
    periodSlots (mkPeriod s e c) = e - s := by
  have h : (2 : ℚ) * (((e - s : ℕ) : ℚ) / 2) = ((e - s : ℕ) : ℚ) := by
    ring
  simp only [periodSlots, mkPeriod, h, Rat.num_natCast, Int.toNat_natCast]

theorem expandPeriods_append (ps qs : List Period) :
    expandPeriods (ps ++ qs) = expandPeriods ps ++ expandPeriods qs := by
  simp [expandPeriods]

/-- Invariant of the compression loop: expanding its output yields the
already-emitted slots, then the in-progress run, then the unscanned
suffix. -/
theorem expandPeriods_stpAux (rest : List Bool) (curr : Bool) (s i : ℕ)
    (acc : List Period) (hsi : s ≤ i) :
    expandPeriods (stpAux rest curr s i acc) =
      expandPeriods acc ++ List.replicate (i - s) curr ++ rest := by
  induction rest generalizing curr s i acc with
  | nil =>
      simp [stpAux, expandPeriods_append, expandPeriods,
        periodSlots_mkPeriod, mkPeriod_is_on]
  | cons b rest ih =>
      by_cases hb : b = curr
      · subst hb
        rw [stpAux, if_neg (by simp)]
        rw [ih b s (i + 1) acc (Nat.le_succ_of_le hsi)]
        have : i + 1 - s = (i - s) + 1 := by omega
        rw [this, List.replicate_add]
        simp
      · rw [stpAux, if_pos (by simp [hb])]
        rw [ih b i (i + 1) (acc ++ [mkPeriod s i curr]) (Nat.le_succ i)]
        rw [expandPeriods_append]
        have : i + 1 - i = 1 := by omega
        rw [this]
        simp [expandPeriods, periodSlots_mkPeriod, mkPeriod_is_on]

/-- **C1.** Compressing a 48-slot timeline with `slots_to_periods` and
re-expanding the periods (each contributing `end_slot - start_slot`
copies of its `is_on` value, in order) reproduces the timeline. -/
theorem C1_roundtrip (slots : List Bool) (hlen : slots.length = 48) :
    expandPeriods (slots_to_periods slots) = slots := by
  cases slots with
  | nil => simp at hlen
  | cons b rest =>
      rw [slots_to_periods, expandPeriods_stpAux rest b 0 1 [] (by omega)]
      simp [expandPeriods]

/-- Witness for C1 at a concrete 48-slot timeline. -/
theorem C1_roundtrip_witness :
    expandPeriods (slots_to_periods
        (List.replicate 10 true ++ List.replicate 20 false ++
          List.replicate 18 true)) =
      List.replicate 10 true ++ List.replicate 20 false ++
        List.replicate 18 true :=
  C1_roundtrip _ (by decide)

theorem stpAux_acc (rest : List Bool) (curr : Bool) (s i : ℕ)
    (acc : List Period) :
    stpAux rest curr s i acc = acc ++ stpAux rest curr s i [] := by
  induction rest generalizing curr s i acc with
  | nil => simp [stpAux]
  | cons b rest ih =>
      by_cases hb : b = curr
      · subst hb
        rw [stpAux, if_neg (by simp), stpAux, if_neg (by simp), ih, ih]
      · rw [stpAux, if_pos (by simp [hb]), stpAux, if_pos (by simp [hb])]
        rw [ih b i (i + 1) (acc ++ [mkPeriod s i curr]),
          ih b i (i + 1) ([] ++ [mkPeriod s i curr])]
        simp

/-- The first period emitted starts at slot `s` with value `curr`. -/
theorem stpAux_head (rest : List Bool) (curr : Bool) (s i : ℕ) :
    ∃ e, (stpAux rest curr s i []).head? = some (mkPeriod s e curr) := by
  induction rest generalizing curr s i with
  | nil => exact ⟨i, rfl⟩
  | cons b rest ih =>
      by_cases hb : b = curr
      · subst hb
        rw [stpAux, if_neg (by simp)]
        exact ih b s (i + 1)
      · rw [stpAux, if_pos (by simp [hb]), stpAux_acc]
        exact ⟨i, rfl⟩

/-- The last period emitted ends at slot `i + rest.length`. -/
theorem stpAux_last (rest : List Bool) (curr : Bool) (s i : ℕ) :
    ∃ s2 c2, (stpAux rest curr s i []).getLast? =
      some (mkPeriod s2 (i + rest.length) c2) := by
  induction rest generalizing curr s i with
  | nil => exact ⟨s, curr, rfl⟩
  | cons b rest ih =>
      by_cases hb : b = curr
      · subst hb
        rw [stpAux, if_neg (by simp)]
        obtain ⟨s2, c2, h2⟩ := ih b s (i + 1)
        refine ⟨s2, c2, ?_⟩
        have harith : i + (b :: rest).length = i + 1 + rest.length := by
          simp [List.length_cons]
          omega
        rw [harith, h2]
      · rw [stpAux, if_pos (by simp [hb]), stpAux_acc]
        obtain ⟨s2, c2, h2⟩ := ih b i (i + 1)
        refine ⟨s2, c2, ?_⟩
        have harith : i + (b :: rest).length = i + 1 + rest.length := by
          simp [List.length_cons]
          omega
        rw [harith, List.getLast?_append_of_ne_nil, h2]
        intro hnil
        obtain ⟨e, he⟩ := stpAux_head rest b i (i + 1)
        rw [hnil] at he
        simp at he

/-- Adjacent periods share their boundary and alternate `is_on`. -/
theorem stpAux_chain (rest : List Bool) (curr : Bool) (s i : ℕ) :
    List.Chain' (fun p q => p.stop = q.start ∧ p.is_on = !q.is_on)
      (stpAux rest curr s i []) := by
  induction rest generalizing curr s i with
  | nil => simp [stpAux]
  | cons b rest ih =>
      by_cases hb : b = curr
      · subst hb
        rw [stpAux, if_neg (by simp)]
        exact ih b s (i + 1)
      · rw [stpAux, if_pos (by simp [hb]), stpAux_acc]
        simp only [List.nil_append]
        rw [List.singleton_append, List.chain'_cons']
        refine ⟨?_, ih b i (i + 1)⟩
        intro q hq
        obtain ⟨e, he⟩ := stpAux_head rest b i (i + 1)
        rw [he] at hq
        cases hq
        refine ⟨rfl, ?_⟩
        cases b <;> cases curr <;> simp_all [mkPeriod]

/-- Every emitted period is non-degenerate (spans at least one slot). -/
theorem stpAux_pos (rest : List Bool) (curr : Bool) (s i : ℕ)
    (hsi : s < i) :
    ∀ p ∈ stpAux rest curr s i [], 0 < p.hours := by
  induction rest generalizing curr s i with
  | nil =>
      intro p hp
      simp [stpAux] at hp
      subst hp
      simp only [mkPeriod]
      have h1 : (0 : ℚ) < ((i - s : ℕ) : ℚ) :=
        Nat.cast_pos.mpr (by omega)
      linarith
  | cons b rest ih =>
      by_cases hb : b = curr
      · subst hb
        rw [stpAux, if_neg (by simp)]
        exact ih b s (i + 1) (by omega)
      · rw [stpAux, if_pos (by simp [hb]), stpAux_acc]
        intro p hp
        rcases List.mem_append.mp hp with hp1 | hp2
        · simp at hp1
          subst hp1
          simp only [mkPeriod]
          have h1 : (0 : ℚ) < ((i - s : ℕ) : ℚ) :=
            Nat.cast_pos.mpr (by omega)
          linarith
        · exact ih b i (i + 1) (by omega) p hp2

/-- The emitted hours sum to half the number of scanned slots. -/
theorem stpAux_sum (rest : List Bool) (curr : Bool) (s i : ℕ)
    (hsi : s ≤ i) :
    ((stpAux rest curr s i []).map Period.hours).sum =
      ((i - s : ℕ) : ℚ) / 2 + (rest.length : ℚ) / 2 := by
  induction rest generalizing curr s i with
  | nil => simp [stpAux, mkPeriod]
  | cons b rest ih =>
      by_cases hb : b = curr
      · subst hb
        rw [stpAux, if_neg (by simp)]
        rw [ih b s (i + 1) (by omega)]
        have h1 : ((i + 1 - s : ℕ) : ℚ) = ((i - s : ℕ) : ℚ) + 1 := by
          have : i + 1 - s = (i - s) + 1 := by omega
          rw [this]
          push_cast
          ring
        rw [h1]
        simp only [List.length_cons]
        push_cast
        ring
      · rw [stpAux, if_pos (by simp [hb]), stpAux_acc]
        rw [List.map_append, List.sum_append]
        rw [ih b i (i + 1) (by omega)]
        have h1 : ((i + 1 - i : ℕ) : ℚ) = 1 := by
          have : i + 1 - i = 1 := by omega
          rw [this]; push_cast; ring
        rw [h1]
        simp only [List.nil_append, List.length_cons, List.map_cons,
          List.map_nil, List.sum_cons, List.sum_nil, mkPeriod]
        push_cast
        ring

/-- **C2.** For a non-empty timeline, `slots_to_periods` covers it
contiguously from slot 0 (`"00:00"`) to slot `len` with no gaps or
overlaps (each period's end is the next period's start and every period
spans at least one slot), consecutive periods alternate `is_on`, and
the `hours` fields sum to `len * 0.5`. -/
theorem C2_coverage (slots : List Bool) (hne : slots ≠ []) :
    slots_to_periods slots ≠ [] ∧
    (∀ p, (slots_to_periods slots).head? = some p → p.start = "00:00") ∧
    (∀ p, (slots_to_periods slots).getLast? = some p →
      p.stop = format_slot_time slots.length) ∧
    List.Chain' (fun p q => p.stop = q.start ∧ p.is_on = !q.is_on)
      (slots_to_periods slots) ∧
    (∀ p ∈ slots_to_periods slots, 0 < p.hours) ∧
    ((slots_to_periods slots).map Period.hours).sum =
      (slots.length : ℚ) * (1 / 2) := by
  cases slots with
  | nil => exact absurd rfl hne
  | cons b rest =>
      rw [slots_to_periods]
      obtain ⟨e, he⟩ := stpAux_head rest b 0 1
      obtain ⟨s2, c2, hl⟩ := stpAux_last rest b 0 1
      refine ⟨?_, ?_, ?_, stpAux_chain rest b 0 1,
        stpAux_pos rest b 0 1 (by omega), ?_⟩
      · intro hnil
        rw [hnil] at he
        simp at he
      · intro p hp
        rw [he] at hp
        cases hp
        rfl
      · intro p hp
        rw [hl] at hp
        cases hp
        simp only [mkPeriod, List.length_cons]
        congr 1
        omega
      · rw [stpAux_sum rest b 0 1 (by omega)]
        simp only [List.length_cons]
        have h1 : ((1 - 0 : ℕ) : ℚ) = 1 := by norm_num
        rw [h1]
        push_cast
        ring

/-- Witness for C2 at a concrete timeline. -/
theorem C2_coverage_witness :
    slots_to_periods [true, true, false] ≠ [] ∧
    (∀ p, (slots_to_periods [true, true, false]).head? = some p →
      p.start = "00:00") ∧
    (∀ p, (slots_to_periods [true, true, false]).getLast? = some p →
      p.stop = format_slot_time ([true, true, false] : List Bool).length) ∧
    List.Chain' (fun p q => p.stop = q.start ∧ p.is_on = !q.is_on)
      (slots_to_periods [true, true, false]) ∧
    (∀ p ∈ slots_to_periods [true, true, false], 0 < p.hours) ∧
    ((slots_to_periods [true, true, false]).map Period.hours).sum =
      (([true, true, false] : List Bool).length : ℚ) * (1 / 2) :=
  C2_coverage [true, true, false] (by simp)

/-! ## Day schedules and the Source A (GitHub) parser -/

/-- A normalized day: the dict `{"slots": …, "status": …}` built by
`extract_github`/`extract_yasno` (main.py lines 140-142, 167-181).  The
display-only `"date"` datetime field is omitted. -/
structure DaySchedule where
  slots : Option (List Bool)
  status : String
  deriving Repr, DecidableEq

/-- Raw Source A day payload: dict from hour key `"1"`..`"24"` to a
state tag. -/
abbrev GhDay := List (String × String)

/-- `day_data.get(str(h), "yes")` (main.py line 109, line 139). -/
def ghState (d : GhDay) (h : ℕ) : String :=
  (lookupD d (toString h)).getD "yes"

/-- `parse_github_day` (main.py lines 106-120): each hour 1..24 appends
two slots according to the tag dispatch chain. -/
def parse_github_day (d : GhDay) : List Bool :=
  (List.range' 1 24).flatMap (fun h =>
    let s := ghState d h
    if s = "yes" then [true, true]
    else if s = "no" then [false, false]
    else if s = "first" then [false, true]
    else if s = "second" then [true, false]
    else [true, true])

/-- The spec's hour-to-slot-pair mapping (`yes→(on,on)`, `no→(off,off)`,
`first→(off,on)`, `second→(on,off)`, default→`(on,on)`), to compare
against the source's dispatch chain. -/
def hourPair (s : String) : List Bool :=
  if s = "yes" then [true, true]
  else if s = "no" then [false, false]
  else if s = "first" then [false, true]
  else if s = "second" then [true, false]
  else [true, true]

theorem parse_github_day_eq (d : GhDay) :
    parse_github_day d =
      (List.range' 1 24).flatMap (fun h => hourPair (ghState d h)) := rfl

theorem hourPair_length (s : String) : (hourPair s).length = 2 := by
  unfold hourPair
  split_ifs <;> rfl

theorem flatMap_hourPair_length (g : ℕ → String) (l : List ℕ) :
    (l.flatMap (fun h => hourPair (g h))).length = 2 * l.length := by
  induction l with
  | nil => rfl
  | cons a l ih =>
      rw [List.flatMap_cons, List.length_append, ih, hourPair_length,
        List.length_cons]
      omega

theorem parse_github_day_length (d : GhDay) :
    (parse_github_day d).length = 48 := by
  rw [parse_github_day_eq, flatMap_hourPair_length]
  rfl

/-- **C5.** `parse_github_day` returns exactly 48 slots; hour `h`
(1..24) contributes the two consecutive slots at positions
`2*(h-1)`, `2*(h-1)+1` given by the mapping `yes→(on,on)`,
`no→(off,off)`, `first→(off,on)`, `second→(on,off)`, and a missing or
unrecognized hour key contributes `(on,on)` as if it were `yes`. -/
theorem C5_hour_mapping (d : GhDay) :
    (parse_github_day d).length = 48 ∧
    parse_github_day d =
      (List.range' 1 24).flatMap (fun h => hourPair (ghState d h)) ∧
    (∀ h, 1 ≤ h → h ≤ 24 →
      ((parse_github_day d).drop (2 * (h - 1))).take 2 =
        hourPair (ghState d h)) ∧
    hourPair "yes" = [true, true] ∧
    hourPair "no" = [false, false] ∧
    hourPair "first" = [false, true] ∧
    hourPair "second" = [true, false] ∧
    (∀ s, s ≠ "yes" → s ≠ "no" → s ≠ "first" → s ≠ "second" →
      hourPair s = [true, true]) ∧
    (∀ h, lookupD d (toString h) = none → ghState d h = "yes") := by
  refine ⟨parse_github_day_length d, parse_github_day_eq d, ?_, rfl, rfl,
    rfl, rfl, ?_, ?_⟩
  · intro h h1 h24
    rw [parse_github_day_eq]
    have hsplit : List.range' 1 24 =
        List.range' 1 (h - 1) ++ (h :: List.range' (h + 1) (24 - h)) := by
      have e1 : List.range' h ((24 - h) + 1) = h :: List.range' (h + 1) (24 - h) := by
        rw [List.range'_succ]
      rw [← e1]
      have e2 : List.range' 1 (h - 1) ++ List.range' (1 + 1 * (h - 1)) ((24 - h) + 1) =
          List.range' 1 (((24 - h) + 1) + (h - 1)) := List.range'_append 1 (h - 1) ((24 - h) + 1) 1
      have e3 : 1 + 1 * (h - 1) = h := by omega
      have e4 : ((24 - h) + 1) + (h - 1) = 24 := by omega
      rw [e3, e4] at e2
      exact e2.symm
    rw [hsplit, List.flatMap_append]
    have hdl : ((List.range' 1 (h - 1)).flatMap
        (fun k => hourPair (ghState d k))).length = 2 * (h - 1) := by
      rw [flatMap_hourPair_length]
      simp [List.length_range']
    rw [← hdl, List.drop_left]
    rw [List.flatMap_cons]
    have hpl : (hourPair (ghState d h)).length = 2 := hourPair_length _
    calc ((hourPair (ghState d h) ++ _).take 2)
        = (hourPair (ghState d h) ++ _).take (hourPair (ghState d h)).length := by
          rw [hpl]
      _ = hourPair (ghState d h) := List.take_left _ _
  · intro s hy hn hf hs
    simp [hourPair, hy, hn, hf, hs]
  · intro h hnone
    simp [ghState, hnone]

/-- Witness for C5 at a concrete day payload and hour. -/
theorem C5_hour_mapping_witness :
    ((parse_github_day [("1", "no"), ("2", "first")]).length = 48) ∧
    (((parse_github_day [("1", "no"), ("2", "first")]).drop
        (2 * (2 - 1))).take 2 =
      hourPair (ghState [("1", "no"), ("2", "first")] 2)) :=
  ⟨(C5_hour_mapping [("1", "no"), ("2", "first")]).1,
    (C5_hour_mapping [("1", "no"), ("2", "first")]).2.2.1 2 (by decide)
      (by decide)⟩

/-- `all(d.get(str(h), "yes") == "yes" for h in range(1, 25))`
(main.py line 139). -/
def allYes (d : GhDay) : Bool :=
  (List.range' 1 24).all (fun h => ghState d h == "yes")

/-- The per-day branch of `extract_github` (main.py lines 139-142): an
all-`yes` day becomes `pending` with no timeline, otherwise `normal`
with the parsed timeline. -/
def parseGithubEntry (d : GhDay) : DaySchedule :=
  if allYes d then { slots := none, status := "pending" }
  else { slots := some (parse_github_day d), status := "normal" }

theorem allYes_slots (d : GhDay) (hall : allYes d = true) :
    parse_github_day d = List.replicate 48 true := by
  rw [parse_github_day_eq]
  have hyes : ∀ h ∈ List.range' 1 24, ghState d h = "yes" := by
    intro h hh
    have hb := (List.all_eq_true.mp hall) h hh
    simpa using hb
  have : ∀ (l : List ℕ), (∀ h ∈ l, ghState d h = "yes") →
      l.flatMap (fun h => hourPair (ghState d h)) =
        List.replicate (2 * l.length) true := by
    intro l
    induction l with
    | nil => intro _; rfl
    | cons a l ih =>
        intro hl
        rw [List.flatMap_cons, ih (fun h hh => hl h (List.mem_cons_of_mem a hh)),
          hl a (List.mem_cons_self a l)]
        have e1 : 2 * (a :: l).length = 2 + 2 * l.length := by
          rw [List.length_cons]; omega
        rw [e1, List.replicate_add]
        rfl
  rw [this (List.range' 1 24) hyes]
  rfl

/-- **C6.** A Source A day on which every hour resolves to `yes`
(including defaulted hours) becomes `pending` with no timeline, instead
of `normal` with the all-on timeline `parse_github_day` would give. -/
theorem C6_all_yes_pending (d : GhDay) (hall : allYes d = true) :
    (parseGithubEntry d).status = "pending" ∧
    (parseGithubEntry d).slots = none ∧
    (parseGithubEntry d).status ≠ "normal" ∧
    parse_github_day d = List.replicate 48 true := by
  refine ⟨?_, ?_, ?_, allYes_slots d hall⟩ <;>
    simp [parseGithubEntry, hall]

/-- Witness for C6: the empty day payload defaults every hour to
`yes`. -/
theorem C6_all_yes_pending_witness :
    (parseGithubEntry []).status = "pending" ∧
    (parseGithubEntry []).slots = none ∧
    (parseGithubEntry []).status ≠ "normal" ∧
    parse_github_day [] = List.replicate 48 true :=
  C6_all_yes_pending [] (by decide)

/-! ## Source B (Yasno) parser -/

/-- One outage interval of the Yasno feed: the dict
`{"start": minutes, "end": minutes, "type": tag}`; every field is read
with `.get` (missing `start`/`end` default to 0, a missing `type` is
not `"NotPlanned"`).  The Python key `"end"` is the field `stop`. -/
structure Interval where
  start : Option ℕ
  stop : Option ℕ
  type : Option String
  deriving Repr, DecidableEq

/-- One interval pass of the slot loop (main.py lines 175-179):
`start, end = s.get("start", 0) // 30, s.get("end", 0) // 30`;
`is_on = (s.get("type") == "NotPlanned")`;
`for i in range(start, min(end, 48)): slots[i] = is_on`. -/
def applyInterval (sl : List Bool) (s : Interval) : List Bool :=
  let a := s.start.getD 0 / 30
  let b := s.stop.getD 0 / 30
  let is_on := s.type == some "NotPlanned"
  (List.range' a (min b 48 - a)).foldl (fun sl2 i => sl2.set i is_on) sl

/-- The timeline built by `extract_yasno` for a day with intervals
(main.py lines 174-179): start fully on, then apply each interval in
input order. -/
def yasnoSlots (l : List Interval) : List Bool :=
  l.foldl applyInterval (List.replicate 48 true)

/-- `is_on` of an interval: `s.get("type") == "NotPlanned"`. -/
def intervalOn (s : Interval) : Bool := s.type == some "NotPlanned"

/-- Whether slot `i` lies in the half-open clamped range
`[start_slot, min(end_slot, 48))` of interval `s`. -/
def slotCovered (s : Interval) (i : ℕ) : Bool :=
  decide (s.start.getD 0 / 30 ≤ i ∧ i < min (s.stop.getD 0 / 30) 48)

/-- Last-write-wins reading of the interval list at slot `i`: the
`is_on` of the last interval covering `i`, else the initial `on`. -/
def lastWrite (l : List Interval) (i : ℕ) : Bool :=
  match (l.filter (fun s => slotCovered s i)).getLast? with
  | some s => intervalOn s
  | none => true

/-- A Yasno day payload (`data[key].get(day)`): ISO date string,
optional status tag (`d.get("status", "")`), interval list (a missing
or null `"slots"` is the empty list, both are falsy). -/
structure YasnoDay where
  dateStr : String
  status : Option String
  slots : List Interval
  deriving Repr

/-- The per-day branch of `extract_yasno` (main.py lines 164-181). -/
def parseYasnoDay (d : YasnoDay) : DaySchedule :=
  if d.status.getD "" = "EmergencyShutdowns" then
    { slots := none, status := "emergency" }
  else if d.slots = [] then { slots := none, status := "pending" }
  else { slots := some (yasnoSlots d.slots), status := "normal" }

theorem foldl_set_length (idxs : List ℕ) (v : Bool) (sl : List Bool) :
    (idxs.foldl (fun sl2 i => sl2.set i v) sl).length = sl.length := by
  induction idxs generalizing sl with
  | nil => rfl
  | cons j idxs ih => rw [List.foldl_cons, ih, List.length_set]

theorem applyInterval_length (sl : List Bool) (s : Interval) :
    (applyInterval sl s).length = sl.length := foldl_set_length _ _ _

theorem yasnoSlots_length (l : List Interval) :
    (yasnoSlots l).length = 48 := by
  have : ∀ sl : List Bool, (l.foldl applyInterval sl).length = sl.length := by
    induction l with
    | nil => intro sl; rfl
    | cons s l ih => intro sl; rw [List.foldl_cons, ih, applyInterval_length]
  rw [yasnoSlots, this]
  simp

theorem foldl_set_getD (idxs : List ℕ) (v : Bool) (sl : List Bool) (i : ℕ) :
    (idxs.foldl (fun sl2 j => sl2.set j v) sl).getD i false =
      if i ∈ idxs ∧ i < sl.length then v else sl.getD i false := by
  induction idxs generalizing sl with
  | nil => simp
  | cons j idxs ih =>
      rw [List.foldl_cons, ih, List.length_set]
      by_cases hmem : i ∈ idxs ∧ i < sl.length
      · rw [if_pos hmem, if_pos ⟨List.mem_cons_of_mem j hmem.1, hmem.2⟩]
      · rw [if_neg hmem]
        by_cases hij : i = j ∧ i < sl.length
        · rw [if_pos ⟨by simp [hij.1], hij.2⟩]
          simp only [List.getD_eq_getElem?_getD, List.getElem?_set]
          rw [if_pos hij.1.symm, if_pos (by omega)]
          rfl
        · have hcons : ¬(i ∈ j :: idxs ∧ i < sl.length) := by
            intro hc
            rcases List.mem_cons.mp hc.1 with h1 | h2
            · exact hij ⟨h1, hc.2⟩
            · exact hmem ⟨h2, hc.2⟩
          rw [if_neg hcons]
          simp only [List.getD_eq_getElem?_getD, List.getElem?_set]
          by_cases hj : j = i
          · rw [if_pos hj]
            have hni : ¬i < sl.length := fun hlt => hij ⟨hj.symm, hlt⟩
            rw [if_neg (by omega)]
            have hnone : sl[i]? = none := by
              rw [List.getElem?_eq_none_iff]
              omega
            rw [hnone]
          · rw [if_neg hj]

theorem applyInterval_getD (sl : List Bool) (s : Interval) (i : ℕ)
    (hlen : sl.length = 48) :
    (applyInterval sl s).getD i false =
      if slotCovered s i then intervalOn s else sl.getD i false := by
  rw [applyInterval, foldl_set_getD]
  have hmem : (i ∈ List.range' (s.start.getD 0 / 30)
        (min (s.stop.getD 0 / 30) 48 - s.start.getD 0 / 30) ∧
      i < sl.length) ↔ slotCovered s i = true := by
    rw [List.mem_range', slotCovered, decide_eq_true_iff]
    constructor
    · rintro ⟨⟨k, hk, hik⟩, hil⟩
      omega
    · rintro ⟨hle, hlt⟩
      refine ⟨⟨i - s.start.getD 0 / 30, by omega, by omega⟩, by omega⟩
  by_cases hc : slotCovered s i
  · rw [if_pos (hmem.mpr hc), if_pos hc]
    rfl
  · rw [if_neg (fun hx => hc (hmem.mp hx)), if_neg hc]

theorem foldl_applyInterval_getD (l : List Interval) (sl : List Bool)
    (i : ℕ) (hlen : sl.length = 48) :
    (l.foldl applyInterval sl).getD i false =
      match (l.filter (fun s => slotCovered s i)).getLast? with
      | some s => intervalOn s
      | none => sl.getD i false := by
  induction l generalizing sl with
  | nil => rfl
  | cons s l ih =>
      rw [List.foldl_cons,
        ih (applyInterval sl s) (by rw [applyInterval_length, hlen])]
      rw [List.filter_cons]
      by_cases hc : slotCovered s i
      · rw [if_pos (by simp [hc])]
        cases hfl : l.filter (fun s2 => slotCovered s2 i) with
        | nil =>
            simp only [List.getLast?_singleton]
            rw [applyInterval_getD sl s i hlen, if_pos hc]
            rfl
        | cons x xs =>
            rw [List.getLast?_cons_cons]
            cases hg : (x :: xs).getLast? with
            | none => simp at hg
            | some y => rfl
      · rw [if_neg (by simp [hc])]
        rw [applyInterval_getD sl s i hlen, if_neg hc]

theorem yasnoSlots_getD (l : List Interval) (i : ℕ) (hi : i < 48) :
    (yasnoSlots l).getD i false = lastWrite l i := by
  rw [yasnoSlots, lastWrite,
    foldl_applyInterval_getD l (List.replicate 48 true) i (by simp)]
  cases (l.filter (fun s => slotCovered s i)).getLast? with
  | some s => rfl
  | none =>
      simp only [List.getD_eq_getElem?_getD]
      rw [List.getElem?_replicate, if_pos hi]
      rfl

/-- **C4.** A Yasno day with intervals and a non-emergency status is
parsed to a `normal` 48-slot timeline that starts all-on and, interval
by interval in input order, paints `[start_minute div 30,
min (end_minute div 30) 48)` with `on` for `"NotPlanned"` intervals and
`off` otherwise; on overlaps the last interval in input order wins. -/
theorem C4_interval_painting (d : YasnoDay)
    (hst : d.status.getD "" ≠ "EmergencyShutdowns")
    (hne : d.slots ≠ []) :
    parseYasnoDay d =
      { slots := some (yasnoSlots d.slots), status := "normal" } ∧
    (yasnoSlots d.slots).length = 48 ∧
    (∀ i, i < 48 →
      (yasnoSlots d.slots).getD i false = lastWrite d.slots i) := by
  refine ⟨?_, yasnoSlots_length _, fun i hi => yasnoSlots_getD _ i hi⟩
  rw [parseYasnoDay, if_neg hst, if_neg hne]

/-- Witness for C4: one `"Planned"` interval 60..120 minutes. -/
theorem C4_interval_painting_witness :
    parseYasnoDay ⟨"2025-01-01", some "Scheduled",
        [⟨some 60, some 120, some "Planned"⟩]⟩ =
      { slots := some (yasnoSlots [⟨some 60, some 120, some "Planned"⟩])
        status := "normal" } ∧
    (yasnoSlots [⟨some 60, some 120, some "Planned"⟩]).length = 48 ∧
    (∀ i, i < 48 →
      (yasnoSlots [⟨some 60, some 120, some "Planned"⟩]).getD i false =
        lastWrite [⟨some 60, some 120, some "Planned"⟩] i) :=
  C4_interval_painting ⟨"2025-01-01", some "Scheduled",
    [⟨some 60, some 120, some "Planned"⟩]⟩ (by decide) (by decide)

/-- **C10.** Both per-day parsers keep the timeline present iff the
status is `"normal"`, and a present timeline has exactly 48 slots. -/
theorem C10_status_exclusivity :
    (∀ d : GhDay,
      ((parseGithubEntry d).slots ≠ none ↔
        (parseGithubEntry d).status = "normal") ∧
      (∀ tl, (parseGithubEntry d).slots = some tl → tl.length = 48)) ∧
    (∀ d : YasnoDay,
      ((parseYasnoDay d).slots ≠ none ↔
        (parseYasnoDay d).status = "normal") ∧
      (∀ tl, (parseYasnoDay d).slots = some tl → tl.length = 48)) := by
  constructor
  · intro d
    rw [parseGithubEntry]
    by_cases hall : allYes d
    · rw [if_pos hall]
      refine ⟨by simp, ?_⟩
      intro tl htl
      simp at htl
    · rw [if_neg hall]
      refine ⟨by simp, ?_⟩
      intro tl htl
      simp at htl
      rw [← htl]
      exact parse_github_day_length d
  · intro d
    rw [parseYasnoDay]
    split_ifs with h1 h2
    · refine ⟨by simp, ?_⟩
      intro tl htl
      simp at htl
    · refine ⟨by simp, ?_⟩
      intro tl htl
      simp at htl
    · refine ⟨by simp, ?_⟩
      intro tl htl
      simp at htl
      rw [← htl]
      exact yasnoSlots_length _

/-- Witness for C10 at concrete days of both sources. -/
theorem C10_status_exclusivity_witness :
    (((parseGithubEntry [("1", "no")]).slots ≠ none ↔
        (parseGithubEntry [("1", "no")]).status = "normal") ∧
      (parse_github_day [("1", "no")]).length = 48) ∧
    ((parseYasnoDay ⟨"2025-01-01", none, []⟩).slots ≠ none ↔
      (parseYasnoDay ⟨"2025-01-01", none, []⟩).status = "normal") :=
  ⟨⟨(C10_status_exclusivity.1 [("1", "no")]).1,
      (C10_status_exclusivity.1 [("1", "no")]).2
        (parse_github_day [("1", "no")]) (by rfl)⟩,
    (C10_status_exclusivity.2 ⟨"2025-01-01", none, []⟩).1⟩

/-! ## Source merger (`format_msg`, per group and date) -/

/-- The match test of `format_msg` (main.py lines 348-353): both days
present, both `normal`, timelines equal. -/
def day_match (g_d y_d : Option DaySchedule) : Bool :=
  match g_d, y_d with
  | some g, some y =>
      if g.status == "normal" && y.status == "normal" then
        g.slots == y.slots
      else false
  | _, _ => false

/-- Which rendering path a day block of `format_msg` comes from:
`format_day(…, "github")`, `format_day(…, "yasno")`, or the matched
GitHub rendering with the combined source label. -/
inductive SrcTag where
  | github
  | yasno
  | combined
  deriving DecidableEq, Repr

/-- The `src_msgs` list built per date by `format_msg`
(main.py lines 355-365), abstracting each `format_day` call to the
(source tag, day) pair it renders. -/
def day_blocks (g_d y_d : Option DaySchedule) : List (SrcTag × DaySchedule) :=
  if day_match g_d y_d then
    match g_d with
    | some g => [(SrcTag.combined, g)]
    | none => []
  else
    (match g_d with
      | some g => [(SrcTag.github, g)]
      | none => []) ++
    (match y_d with
      | some y => [(SrcTag.yasno, y)]
      | none => [])

/-- **C3.** `format_msg` reports a match iff both source days are
present with status `normal` and identical timelines; timelines
differing in one slot never match; on a non-match each present source
is rendered independently, GitHub (source A) before Yasno (source B). -/
theorem C3_merge_exactness :
    (∀ og oy : Option DaySchedule, day_match og oy = true ↔
      ∃ g y, og = some g ∧ oy = some y ∧ g.status = "normal" ∧
        y.status = "normal" ∧ g.slots = y.slots) ∧
    (∀ (g y : DaySchedule) (tl : List Bool) (i : ℕ), g.slots = some tl →
      i < tl.length → y.slots = some (tl.set i (!tl.getD i false)) →
      day_match (some g) (some y) = false) ∧
    (∀ g y : DaySchedule, day_match (some g) (some y) = false →
      day_blocks (some g) (some y) =
        [(SrcTag.github, g), (SrcTag.yasno, y)]) ∧
    (∀ g : DaySchedule, day_blocks (some g) none = [(SrcTag.github, g)]) ∧
    (∀ y : DaySchedule, day_blocks none (some y) = [(SrcTag.yasno, y)]) := by
  have hiff : ∀ og oy : Option DaySchedule, day_match og oy = true ↔
      ∃ g y, og = some g ∧ oy = some y ∧ g.status = "normal" ∧
        y.status = "normal" ∧ g.slots = y.slots := by
    intro og oy
    cases og with
    | none => simp [day_match]
    | some g =>
        cases oy with
        | none => simp [day_match]
        | some y =>
            simp only [day_match, Option.some.injEq]
            constructor
            · intro hmt
              by_cases hcond : g.status == "normal" && y.status == "normal"
              · rw [if_pos hcond] at hmt
                obtain ⟨hg, hy⟩ := Bool.and_eq_true_iff.mp hcond
                exact ⟨g, y, rfl, rfl, by simpa using hg, by simpa using hy,
                  by simpa using hmt⟩
              · rw [if_neg hcond] at hmt
                exact absurd hmt (by simp)
            · rintro ⟨g2, y2, hg2, hy2, hgs, hys, hsl⟩
              cases hg2
              cases hy2
              rw [if_pos (by simp [hgs, hys])]
              simpa using hsl
  refine ⟨hiff, ?_, ?_, ?_, ?_⟩
  · intro g y tl i hgs hi hys
    by_contra hmt
    rw [Bool.not_eq_false] at hmt
    obtain ⟨g2, y2, hg2, hy2, _, _, hsl⟩ := (hiff _ _).mp hmt
    cases hg2
    cases hy2
    rw [hgs, hys, Option.some.injEq] at hsl
    have hset := congrArg (fun l => l.getD i false) hsl
    simp only [List.getD_eq_getElem?_getD, List.getElem?_set] at hset
    rw [if_pos trivial, if_pos hi] at hset
    simp only [Option.getD_some] at hset
    revert hset
    cases tl[i]?.getD false <;> simp
  · intro g y hnm
    rw [day_blocks, if_neg (by simp [hnm])]
    rfl
  · intro g
    rw [day_blocks, if_neg (by simp [day_match])]
    rfl
  · intro y
    rw [day_blocks, if_neg (by simp [day_match])]
    rfl

/-- Witness for C3 at concrete days: equal-normal days match; a
one-slot flip breaks the match and both sources are rendered with
GitHub first. -/
theorem C3_merge_exactness_witness :
    (day_match (some ⟨some [true, false], "normal"⟩)
        (some ⟨some [true, false], "normal"⟩) = true ↔
      ∃ g y, (some ⟨some [true, false], "normal"⟩ : Option DaySchedule) = some g ∧
        (some ⟨some [true, false], "normal"⟩ : Option DaySchedule) = some y ∧
        g.status = "normal" ∧ y.status = "normal" ∧ g.slots = y.slots) ∧
    day_match (some ⟨some [true, false], "normal"⟩)
      (some ⟨some ([true, false].set 0 (!(([true, false] : List Bool).getD 0 false))), "normal"⟩) = false ∧
    day_blocks (some ⟨some [true, false], "normal"⟩)
        (some ⟨some [false, false], "normal"⟩) =
      [(SrcTag.github, ⟨some [true, false], "normal"⟩),
        (SrcTag.yasno, ⟨some [false, false], "normal"⟩)] :=
  ⟨C3_merge_exactness.1 _ _,
    C3_merge_exactness.2.1 ⟨some [true, false], "normal"⟩
      ⟨some ([true, false].set 0 (!(([true, false] : List Bool).getD 0 false))), "normal"⟩
      [true, false] 0 rfl (by decide) rfl,
    C3_merge_exactness.2.2.1 _ _ (by decide)⟩

/-! ## Hour formatting with Ukrainian declension -/

/-- `format_hours_full` (main.py lines 46-57), modelling the word-form
selection.  A rational is an integer iff its denominator is 1, mirroring
`hours == int(hours)`; a non-integer keeps Python type `float` and takes
the long plural-genitive-like form.  The returned value is the
declension word appended after the number (the numeral prefix itself is
Python number rendering, elided here). -/
def format_hours_full (q : ℚ) : String :=
  if q.den = 1 then
    if q.num % 10 = 1 ∧ q.num % 100 ≠ 11 then "година"
    else if (q.num % 10 = 2 ∨ q.num % 10 = 3 ∨ q.num % 10 = 4) ∧
        ¬(q.num % 100 = 12 ∨ q.num % 100 = 13 ∨ q.num % 100 = 14) then
      "години"
    else "годин"
  else "години"

/-- **C9.** The agreement rule of `format_hours_full`: fractional
values take the long plural-genitive-like form; whole numbers ending in
1 (but not 11) the singular; whole numbers ending in 2..4 (but not
12..14) the few form; all other whole numbers the many form. -/
theorem C9_hour_declension (q : ℚ) :
    (q.den ≠ 1 → format_hours_full q = "години") ∧
    (q.den = 1 → q.num % 10 = 1 → q.num % 100 ≠ 11 →
      format_hours_full q = "година") ∧
    (q.den = 1 → (q.num % 10 = 2 ∨ q.num % 10 = 3 ∨ q.num % 10 = 4) →
      (q.num % 100 ≠ 12 ∧ q.num % 100 ≠ 13 ∧ q.num % 100 ≠ 14) →
      format_hours_full q = "години") ∧
    (q.den = 1 → ¬(q.num % 10 = 1 ∧ q.num % 100 ≠ 11) →
      ¬((q.num % 10 = 2 ∨ q.num % 10 = 3 ∨ q.num % 10 = 4) ∧
        ¬(q.num % 100 = 12 ∨ q.num % 100 = 13 ∨ q.num % 100 = 14)) →
      format_hours_full q = "годин") := by
  refine ⟨?_, ?_, ?_, ?_⟩
  · intro hden
    rw [format_hours_full, if_neg hden]
  · intro hden h1 h11
    rw [format_hours_full, if_pos hden, if_pos ⟨h1, h11⟩]
  · intro hden hfew hexc
    rw [format_hours_full, if_pos hden, if_neg (by omega),
      if_pos ⟨hfew, by omega⟩]
  · intro hden hone hfew
    rw [format_hours_full, if_pos hden, if_neg hone, if_neg hfew]

/-- Witness for C9: `2.5` takes the long form, `21` the singular, `3`
the few form, `11` the many form. -/
theorem C9_hour_declension_witness :
    format_hours_full (5 / 2) = "години" ∧
    format_hours_full 21 = "година" ∧
    format_hours_full 3 = "години" ∧
    format_hours_full 11 = "годин" :=
  ⟨(C9_hour_declension (5 / 2)).1 (by norm_num),
    (C9_hour_declension 21).2.1 (by norm_num) (by norm_num) (by norm_num),
    (C9_hour_declension 3).2.2.1 (by norm_num) (by norm_num) (by norm_num),
    (C9_hour_declension 11).2.2.2 (by norm_num) (by norm_num) (by norm_num)⟩

/-! ## Snapshot builder: at most two dates per group per source -/

/-- The GitHub feed's `fact["data"]` dict: unix-timestamp day key →
(group key → hour dict). -/
abbrev GhFact := List (ℕ × List (String × GhDay))

/-- `sorted(fact.keys(), key=int)` (main.py line 131). -/
def sortedKeys (fact : GhFact) : List ℕ :=
  List.insertionSort (fun a b => a ≤ b) (fact.map Prod.fst)

/-- The entry `extract_github` stores for group `grp` at day key `ts`
(main.py lines 132-142): `fact.get(ts, {}).get(grp)`, skipped when
missing or empty (`if not d: continue`). -/
def ghDayEntry (fact : GhFact) (grp : String) (ts : ℕ) :
    Option (ℕ × DaySchedule) :=
  match lookupD ((lookupN fact ts).getD []) grp with
  | none => none
  | some d => if d = [] then none else some (ts, parseGithubEntry d)

/-- Per-group result of `extract_github` (main.py lines 129-143): only
the two smallest day keys of the whole feed are visited
(`sorted(fact.keys(), key=int)[:2]`). -/
def extract_github_group (fact : GhFact) (grp : String) :
    List (ℕ × DaySchedule) :=
  ((sortedKeys fact).take 2).filterMap (ghDayEntry fact grp)

/-- `extract_github` (main.py lines 123-143) over the configured
groups; the `fact` argument is `data.get("fact", {}).get("data", {})`. -/
def extract_github (fact : GhFact) (groups : List String) :
    List (String × List (ℕ × DaySchedule)) :=
  groups.map (fun grp => (grp, extract_github_group fact grp))

/-- One Yasno feed group entry: the `{today, tomorrow}` pair. -/
structure YasnoEntry where
  today : Option YasnoDay
  tomorrow : Option YasnoDay

/-- Python dict assignment `res[grp][d_str] = v`: replace an existing
key's value, else append. -/
def dinsert (m : List (String × DaySchedule)) (k : String)
    (v : DaySchedule) : List (String × DaySchedule) :=
  if (lookupD m k).isSome then
    m.map (fun p => if p.1 == k then (k, v) else p)
  else m ++ [(k, v)]

/-- Per-group result of `extract_yasno` (main.py lines 157-181): the
present `today`/`tomorrow` days in that order, keyed by date string. -/
def extract_yasno_group (e : YasnoEntry) : List (String × DaySchedule) :=
  ([e.today, e.tomorrow].filterMap id).foldl
    (fun m d => dinsert m d.dateStr (parseYasnoDay d)) []

/-- `extract_yasno` (main.py lines 146-182): group keys are looked up
with the `"GPV"` prefix stripped (`grp.replace("GPV", "")`); an absent
key contributes nothing. -/
def extract_yasno (data : List (String × YasnoEntry))
    (groups : List String) : List (String × List (String × DaySchedule)) :=
  groups.filterMap (fun grp =>
    (lookupD data (grp.replace "GPV" "")).map
      (fun e => (grp, extract_yasno_group e)))

/-- From the spec's words ("the two earliest dates available for that
group in that source's feed (day keys parsed and sorted ascending)"):
feed day keys at which `grp` has usable (non-empty) data, sorted
ascending, first two.  Stated for comparison with
`extract_github_group`. -/
def spec_group_dates (fact : GhFact) (grp : String) : List ℕ :=
  (List.insertionSort (fun a b => a ≤ b)
    ((fact.filter (fun p =>
      match lookupD p.2 grp with
      | some d => decide (d ≠ [])
      | none => false)).map Prod.fst)).take 2

/-- **C7 counterexample.** A feed whose earliest day key lacks the
group: the group has usable data at keys 200 and 300, but
`extract_github` visits only the feed-wide earliest keys 100 and 200
and keeps just the date 200 — not the two earliest dates available for
the group. -/
theorem C7_counterexample :
    ((extract_github_group
        [(100, []), (200, [("GPV1", [("1", "no")])]),
          (300, [("GPV1", [("1", "no")])])] "GPV1").map Prod.fst = [200]) ∧
    (spec_group_dates
        [(100, []), (200, [("GPV1", [("1", "no")])]),
          (300, [("GPV1", [("1", "no")])])] "GPV1" = [200, 300]) ∧
    ((extract_github_group
        [(100, []), (200, [("GPV1", [("1", "no")])]),
          (300, [("GPV1", [("1", "no")])])] "GPV1").map Prod.fst ≠
      spec_group_dates
        [(100, []), (200, [("GPV1", [("1", "no")])]),
          (300, [("GPV1", [("1", "no")])])] "GPV1") := by
  refine ⟨by decide, by decide, by decide⟩

theorem ghDayEntry_fst (fact : GhFact) (grp : String) (ts : ℕ)
    (pr : ℕ × DaySchedule) (h : ghDayEntry fact grp ts = some pr) :
    pr.1 = ts := by
  rw [ghDayEntry] at h
  cases hl : lookupD ((lookupN fact ts).getD []) grp with
  | none => rw [hl] at h; cases h
  | some d =>
      rw [hl] at h
      change (if d = [] then none else some (ts, parseGithubEntry d)) =
        some pr at h
      split_ifs at h
      cases h
      rfl

theorem filterMap_ghDayEntry_sublist (fact : GhFact) (grp : String)
    (l : List ℕ) :
    ((l.filterMap (ghDayEntry fact grp)).map Prod.fst).Sublist l := by
  induction l with
  | nil => simp
  | cons a l ih =>
      rw [List.filterMap_cons]
      cases h : ghDayEntry fact grp a with
      | none => exact ih.cons a
      | some pr =>
          rw [List.map_cons, ghDayEntry_fst fact grp a pr h]
          exact ih.cons₂ a

theorem dinsert_length (m : List (String × DaySchedule)) (k : String)
    (v : DaySchedule) : (dinsert m k v).length ≤ m.length + 1 := by
  rw [dinsert]
  split_ifs with h
  · rw [List.length_map]; omega
  · rw [List.length_append]; simp

theorem mem_dinsert (m : List (String × DaySchedule)) (k : String)
    (v : DaySchedule) (p : String × DaySchedule) (hp : p ∈ dinsert m k v) :
    p.1 = k ∨ p ∈ m := by
  rw [dinsert] at hp
  split_ifs at hp with h
  · obtain ⟨q, hq, hfq⟩ := List.mem_map.mp hp
    by_cases hqk : q.1 == k
    · rw [if_pos hqk] at hfq
      left
      rw [← hfq]
    · rw [if_neg hqk] at hfq
      right
      rw [← hfq]
      exact hq
  · rcases List.mem_append.mp hp with h1 | h2
    · right; exact h1
    · left
      simp at h2
      rw [h2]

theorem foldl_dinsert_length (days : List YasnoDay)
    (m : List (String × DaySchedule)) :
    (days.foldl (fun m2 d => dinsert m2 d.dateStr (parseYasnoDay d))
      m).length ≤ m.length + days.length := by
  induction days generalizing m with
  | nil => simp
  | cons d days ih =>
      rw [List.foldl_cons]
      calc (days.foldl _ (dinsert m d.dateStr (parseYasnoDay d))).length
          ≤ (dinsert m d.dateStr (parseYasnoDay d)).length + days.length :=
            ih _
        _ ≤ m.length + 1 + days.length := by
            have := dinsert_length m d.dateStr (parseYasnoDay d)
            omega
        _ = m.length + (d :: days).length := by
            rw [List.length_cons]; omega

theorem foldl_dinsert_keys (days : List YasnoDay)
    (m : List (String × DaySchedule)) (p : String × DaySchedule)
    (hp : p ∈ days.foldl
      (fun m2 d => dinsert m2 d.dateStr (parseYasnoDay d)) m) :
    p ∈ m ∨ p.1 ∈ days.map YasnoDay.dateStr := by
  induction days generalizing m with
  | nil => left; exact hp
  | cons d days ih =>
      rw [List.foldl_cons] at hp
      rcases ih _ hp with h1 | h2
      · rcases mem_dinsert _ _ _ _ h1 with hk | hm
        · right
          rw [List.map_cons, hk]
          exact List.mem_cons_self _ _
        · left; exact hm
      · right
        rw [List.map_cons]
        exact List.mem_cons_of_mem _ h2

/-- **C7 amended.** Each source retains at most two dates per group.
For Source A the retained day keys are drawn (in order) from the two
smallest day keys of the whole feed — not from the two earliest dates
available for that group, as `C7_counterexample` shows.  For Source B
the retained dates are those of the feed's present `today`/`tomorrow`
entries for the group. -/
theorem C7_amended :
    (∀ (fact : GhFact) (groups : List String) (grp : String)
      (res : List (ℕ × DaySchedule)),
      (grp, res) ∈ extract_github fact groups →
      res.length ≤ 2 ∧
      (res.map Prod.fst).Sublist ((sortedKeys fact).take 2)) ∧
    (∀ (data : List (String × YasnoEntry)) (groups : List String)
      (grp : String) (res : List (String × DaySchedule)),
      (grp, res) ∈ extract_yasno data groups →
      res.length ≤ 2 ∧
      ∃ e, lookupD data (grp.replace "GPV" "") = some e ∧
        res = extract_yasno_group e ∧
        ∀ p ∈ res,
          p.1 ∈ ([e.today, e.tomorrow].filterMap id).map YasnoDay.dateStr) := by
  constructor
  · intro fact groups grp res hmem
    obtain ⟨grp2, _, heq⟩ := List.mem_map.mp hmem
    injection heq with he1 he2
    subst he1
    rw [← he2, extract_github_group]
    constructor
    · calc (((sortedKeys fact).take 2).filterMap
            (ghDayEntry fact grp2)).length
          ≤ ((sortedKeys fact).take 2).length :=
            List.length_filterMap_le _ _
        _ ≤ 2 := by
            rw [List.length_take]
            omega
    · exact filterMap_ghDayEntry_sublist fact grp2 _
  · intro data groups grp res hmem
    obtain ⟨grp2, _, heq⟩ := List.mem_filterMap.mp hmem
    obtain ⟨e, he, heq2⟩ := Option.map_eq_some'.mp heq
    injection heq2 with hg1 hg2
    subst hg1
    refine ⟨?_, e, he, hg2.symm, ?_⟩
    · rw [← hg2, extract_yasno_group]
      have hfl : ([e.today, e.tomorrow].filterMap id).length ≤ 2 := by
        calc ([e.today, e.tomorrow].filterMap id).length
            ≤ ([e.today, e.tomorrow] : List (Option YasnoDay)).length :=
              List.length_filterMap_le _ _
          _ = 2 := rfl
      have := foldl_dinsert_length ([e.today, e.tomorrow].filterMap id) []
      simp at this
      omega
    · intro p hp
      rw [← hg2, extract_yasno_group] at hp
      rcases foldl_dinsert_keys _ _ _ hp with h1 | h2
      · cases h1
      · exact h2

/-- Witness for C7 at concrete feeds of both sources. -/
theorem C7_amended_witness :
    ((extract_github_group [(100, [("A", [("1", "no")])])] "A").length ≤ 2 ∧
      ((extract_github_group [(100, [("A", [("1", "no")])])] "A").map
        Prod.fst).Sublist
        ((sortedKeys [(100, [("A", [("1", "no")])])]).take 2)) ∧
    (extract_yasno_group ⟨some ⟨"2025-01-01", none, []⟩, none⟩).length ≤ 2 :=
  ⟨(C7_amended.1 [(100, [("A", [("1", "no")])])] ["A"] "A"
      (extract_github_group [(100, [("A", [("1", "no")])])] "A")
      (by simp [extract_github])),
    (C7_amended.2
      [("GPV7".replace "GPV" "", ⟨some ⟨"2025-01-01", none, []⟩, none⟩)]
      ["GPV7"] "GPV7"
      (extract_yasno_group ⟨some ⟨"2025-01-01", none, []⟩, none⟩)
      (by simp [extract_yasno, lookupD])).1⟩

/-! ## Change detector: Python `==` on the serialized snapshots

`main` (main.py lines 450-461) serializes each source's snapshot to
`{group: {date: {"status": …, "slots": …}}}`, wraps both in
`{"github": …, "yasno": …}` and compares with Python `==` against the
persisted cache.  Python dict equality is key-order-independent at
every dict level and order-dependent inside the `slots` list; on
association lists with distinct keys it is `cacheEq` below. -/

/-- Serialized day map: date string → `{"status", "slots"}`. -/
abbrev DateMap := List (String × DaySchedule)

/-- Serialized group map: group → date map. -/
abbrev GroupMap := List (String × DateMap)

/-- Serialized snapshot pair: source (`"github"`/`"yasno"`) → group
map. -/
abbrev Cache := List (String × GroupMap)

/-- Python `==` on the day dict `{"status": …, "slots": …}`: both
fields equal (slot lists compared element-wise, in order). -/
def dayEq (a b : DaySchedule) : Bool :=
  a.status == b.status && a.slots == b.slots

/-- Python `==` on a date dict (distinct keys): every key of `a` is in
`b` with `dayEq` value, and every key of `b` is in `a`. -/
def dateMapEq (a b : DateMap) : Bool :=
  (a.all (fun p => match lookupD b p.1 with
    | some w => dayEq p.2 w
    | none => false)) &&
  (b.all (fun p => (lookupD a p.1).isSome))

/-- Python `==` one level up: group dicts. -/
def groupMapEq (a b : GroupMap) : Bool :=
  (a.all (fun p => match lookupD b p.1 with
    | some w => dateMapEq p.2 w
    | none => false)) &&
  (b.all (fun p => (lookupD a p.1).isSome))

/-- Python `==` at the top: `new_c == old_c` (main.py line 459). -/
def cacheEq (a b : Cache) : Bool :=
  (a.all (fun p => match lookupD b p.1 with
    | some w => groupMapEq p.2 w
    | none => false)) &&
  (b.all (fun p => (lookupD a p.1).isSome))

/-- Python dicts never repeat keys: distinct keys at the source, group
and date levels. -/
def cacheNodup (c : Cache) : Prop :=
  (c.map Prod.fst).Nodup ∧
  ∀ p ∈ c, (p.2.map Prod.fst).Nodup ∧
    ∀ q ∈ p.2, (q.2.map Prod.fst).Nodup

/-- `b` is `a` with date-map entries permuted (same key/value
bindings, any insertion order). -/
def dateMapPerm (a b : DateMap) : Prop := a.Perm b

/-- `b` is `a` with entries permuted at the group level and,
pointwise, at the date level. -/
def groupMapPerm (a b : GroupMap) : Prop :=
  ∃ m, List.Forall₂ (fun p q => p.1 = q.1 ∧ dateMapPerm p.2 q.2) a m ∧
    m.Perm b

/-- `b` is `a` with entries permuted at the source, group and date
mapping levels, all bindings kept. -/
def cachePerm (a b : Cache) : Prop :=
  ∃ m, List.Forall₂ (fun p q => p.1 = q.1 ∧ groupMapPerm p.2 q.2) a m ∧
    m.Perm b

theorem lookupD_cons {α : Type} (p : String × α) (l : List (String × α))
    (k : String) :
    lookupD (p :: l) k = if p.1 == k then some p.2 else lookupD l k := by
  cases h : (p.1 == k) with
  | true => simp [lookupD, List.find?_cons, h]
  | false => simp [lookupD, List.find?_cons, h]

theorem lookupD_isSome_iff {α : Type} (l : List (String × α)) (k : String) :
    (lookupD l k).isSome = true ↔ k ∈ l.map Prod.fst := by
  induction l with
  | nil => simp [lookupD]
  | cons p l ih =>
      rw [lookupD_cons]
      by_cases h : p.1 == k
      · rw [if_pos h]
        simp only [Option.isSome_some, List.map_cons, List.mem_cons]
        have : p.1 = k := by simpa using h
        simp [this]
      · rw [if_neg h]
        simp only [List.map_cons, List.mem_cons]
        rw [ih]
        have : ¬p.1 = k := by simpa using h
        constructor
        · intro hm; right; exact hm
        · rintro (hm | hm)
          · exact absurd hm.symm this
          · exact hm

theorem lookupD_eq_some_mem {α : Type} (l : List (String × α)) (k : String)
    (v : α) (h : lookupD l k = some v) : (k, v) ∈ l := by
  induction l with
  | nil => simp [lookupD] at h
  | cons p l ih =>
      rw [lookupD_cons] at h
      by_cases hk : p.1 == k
      · rw [if_pos hk] at h
        cases h
        have : p.1 = k := by simpa using hk
        rw [List.mem_cons]
        left
        rw [← this]
      · rw [if_neg hk] at h
        exact List.mem_cons_of_mem p (ih h)

theorem mem_lookupD_of_nodup {α : Type} (l : List (String × α))
    (hnd : (l.map Prod.fst).Nodup) (k : String) (v : α)
    (hm : (k, v) ∈ l) : lookupD l k = some v := by
  induction l with
  | nil => simp at hm
  | cons p l ih =>
      rw [lookupD_cons]
      rw [List.map_cons, List.nodup_cons] at hnd
      rcases List.mem_cons.mp hm with h1 | h2
      · rw [← h1]
        simp
      · have hk : ¬p.1 = k := by
          intro hpk
          exact hnd.1 (hpk ▸ (List.mem_map.mpr ⟨(k, v), h2, rfl⟩))
        rw [if_neg (by simpa using hk)]
        exact ih hnd.2 h2

theorem lookupD_perm {α : Type} (a b : List (String × α)) (hp : a.Perm b)
    (hnd : (a.map Prod.fst).Nodup) (k : String) :
    lookupD b k = lookupD a k := by
  have hndb : (b.map Prod.fst).Nodup := ((hp.map Prod.fst).nodup_iff).mp hnd
  cases hv : lookupD a k with
  | some v =>
      exact mem_lookupD_of_nodup b hndb k v
        (hp.mem_iff.mp (lookupD_eq_some_mem a k v hv))
  | none =>
      rw [← Option.not_isSome_iff_eq_none] at hv ⊢
      intro hs
      apply hv
      rw [lookupD_isSome_iff] at hs ⊢
      exact ((hp.map Prod.fst).mem_iff).mpr hs

theorem forall₂_keys {β : Type} (R : β → β → Prop)
    (a m : List (String × β))
    (hf : List.Forall₂ (fun p q => p.1 = q.1 ∧ R p.2 q.2) a m) :
    a.map Prod.fst = m.map Prod.fst := by
  induction hf with
  | nil => rfl
  | cons hpq _ ih =>
      rw [List.map_cons, List.map_cons, hpq.1, ih]

theorem forall₂_lookup {β : Type} (R : β → β → Prop)
    (a m : List (String × β))
    (hf : List.Forall₂ (fun p q => p.1 = q.1 ∧ R p.2 q.2) a m)
    (k : String) (v : β) (hv : lookupD a k = some v) :
    ∃ w, lookupD m k = some w ∧ R v w := by
  induction hf with
  | nil => simp [lookupD] at hv
  | cons hpq htail ih =>
      rename_i x y xs ys
      rw [lookupD_cons] at hv
      rw [lookupD_cons]
      by_cases hk : x.1 == k
      · rw [if_pos hk] at hv
        cases hv
        rw [if_pos (by rw [← hpq.1]; exact hk)]
        exact ⟨y.2, rfl, hpq.2⟩
      · rw [if_neg hk] at hv
        rw [if_neg (by rw [← hpq.1]; exact hk)]
        exact ih hv

theorem dayEq_refl (v : DaySchedule) : dayEq v v = true := by
  simp [dayEq]

theorem dateMapEq_of_perm (a b : DateMap) (hp : a.Perm b)
    (hnd : (a.map Prod.fst).Nodup) : dateMapEq a b = true := by
  rw [dateMapEq, Bool.and_eq_true]
  constructor
  · rw [List.all_eq_true]
    intro p hpa
    have ha : lookupD a p.1 = some p.2 :=
      mem_lookupD_of_nodup a hnd p.1 p.2 (by simpa using hpa)
    have hb : lookupD b p.1 = some p.2 := by
      rw [lookupD_perm a b hp hnd p.1]
      exact ha
    rw [hb]
    exact dayEq_refl p.2
  · rw [List.all_eq_true]
    intro p hpb
    rw [lookupD_isSome_iff]
    exact ((hp.map Prod.fst).mem_iff).mpr
      (List.mem_map.mpr ⟨p, hpb, rfl⟩)

theorem groupMapEq_of_permRel (a b : GroupMap) (hrel : groupMapPerm a b)
    (hnd : (a.map Prod.fst).Nodup)
    (hnd2 : ∀ p ∈ a, (p.2.map Prod.fst).Nodup) :
    groupMapEq a b = true := by
  obtain ⟨m, hf, hp⟩ := hrel
  have hkeys : a.map Prod.fst = m.map Prod.fst :=
    forall₂_keys dateMapPerm a m hf
  have hndm : (m.map Prod.fst).Nodup := hkeys ▸ hnd
  rw [groupMapEq, Bool.and_eq_true]
  constructor
  · rw [List.all_eq_true]
    intro p hpa
    have ha : lookupD a p.1 = some p.2 :=
      mem_lookupD_of_nodup a hnd p.1 p.2 (by simpa using hpa)
    obtain ⟨w, hw, hvw⟩ := forall₂_lookup dateMapPerm a m hf p.1 p.2 ha
    have hb : lookupD b p.1 = some w :=
      (lookupD_perm m b hp hndm p.1).trans hw
    rw [hb]
    exact dateMapEq_of_perm p.2 w hvw (hnd2 p hpa)
  · rw [List.all_eq_true]
    intro p hpb
    rw [lookupD_isSome_iff, hkeys]
    exact ((hp.map Prod.fst).mem_iff).mpr
      (List.mem_map.mpr ⟨p, hpb, rfl⟩)

theorem cacheEq_of_permRel (a b : Cache) (hna : cacheNodup a)
    (hrel : cachePerm a b) : cacheEq a b = true := by
  obtain ⟨m, hf, hp⟩ := hrel
  have hkeys : a.map Prod.fst = m.map Prod.fst :=
    forall₂_keys groupMapPerm a m hf
  have hndm : (m.map Prod.fst).Nodup := hkeys ▸ hna.1
  rw [cacheEq, Bool.and_eq_true]
  constructor
  · rw [List.all_eq_true]
    intro p hpa
    have ha : lookupD a p.1 = some p.2 :=
      mem_lookupD_of_nodup a hna.1 p.1 p.2 (by simpa using hpa)
    obtain ⟨w, hw, hvw⟩ := forall₂_lookup groupMapPerm a m hf p.1 p.2 ha
    have hb : lookupD b p.1 = some w :=
      (lookupD_perm m b hp hndm p.1).trans hw
    rw [hb]
    exact groupMapEq_of_permRel p.2 w hvw (hna.2 p hpa).1 (hna.2 p hpa).2
  · rw [List.all_eq_true]
    intro p hpb
    rw [lookupD_isSome_iff, hkeys]
    exact ((hp.map Prod.fst).mem_iff).mpr
      (List.mem_map.mpr ⟨p, hpb, rfl⟩)

instance cacheNodupDecidable (c : Cache) : Decidable (cacheNodup c) := by
  unfold cacheNodup
  infer_instance

theorem groupMapPerm_refl (g : GroupMap) : groupMapPerm g g :=
  ⟨g, List.forall₂_same.mpr (fun p _ => ⟨rfl, List.Perm.refl p.2⟩),
    List.Perm.refl g⟩

/-- **C8.** The change-detector equality (`new_c == old_c`) is
insensitive to key insertion order at the source, group and date
mapping levels — permuting entries of a well-formed (distinct-key)
cache never yields "changed" — but flipping any single slot of any
timeline yields "changed". -/
theorem C8_change_detection :
    (∀ a b : Cache, cacheNodup a → cachePerm a b → cacheEq a b = true) ∧
    (∀ (a b : Cache) (s g dkey : String) (gm gm2 : GroupMap)
      (dm dm2 : DateMap) (day day2 : DaySchedule) (tl : List Bool) (i : ℕ),
      lookupD a s = some gm → lookupD b s = some gm2 →
      lookupD gm g = some dm → lookupD gm2 g = some dm2 →
      lookupD dm dkey = some day → lookupD dm2 dkey = some day2 →
      day.slots = some tl → i < tl.length →
      day2.slots = some (tl.set i (!tl.getD i false)) →
      cacheEq a b = false) := by
  constructor
  · exact cacheEq_of_permRel
  · intro a b s g dkey gm gm2 dm dm2 day day2 tl i has hbs hag hbg had hbd
      hsl hi hsl2
    cases hcb : cacheEq a b with
    | false => rfl
    | true =>
        exfalso
        rw [cacheEq, Bool.and_eq_true] at hcb
        have h1 := List.all_eq_true.mp hcb.1 (s, gm)
          (lookupD_eq_some_mem a s gm has)
        rw [hbs] at h1
        have hgm : groupMapEq gm gm2 = true := h1
        rw [groupMapEq, Bool.and_eq_true] at hgm
        have h2 := List.all_eq_true.mp hgm.1 (g, dm)
          (lookupD_eq_some_mem gm g dm hag)
        rw [hbg] at h2
        have hdm : dateMapEq dm dm2 = true := h2
        rw [dateMapEq, Bool.and_eq_true] at hdm
        have h3 := List.all_eq_true.mp hdm.1 (dkey, day)
          (lookupD_eq_some_mem dm dkey day had)
        rw [hbd] at h3
        have hday : dayEq day day2 = true := h3
        rw [dayEq, Bool.and_eq_true] at hday
        have hslots : day.slots = day2.slots := by
          have := hday.2
          simpa using this
        rw [hsl, hsl2, Option.some.injEq] at hslots
        have hset := congrArg (fun l => l.getD i false) hslots
        simp only [List.getD_eq_getElem?_getD, List.getElem?_set] at hset
        rw [if_pos trivial, if_pos hi] at hset
        simp only [Option.getD_some] at hset
        revert hset
        cases tl[i]?.getD false <;> simp

/-- Concrete caches for the C8 witness: `c8b` permutes the source keys
of `c8a`; `c8d` flips slot 1 of the single timeline of `c8c`. -/
def c8gm : GroupMap :=
  [("GPV1", [("2025-01-01", ⟨some [true, false], "normal"⟩)])]

def c8a : Cache := [("github", c8gm), ("yasno", [])]

def c8b : Cache := [("yasno", []), ("github", c8gm)]

def c8day : DaySchedule := ⟨some [true, true], "normal"⟩

def c8day2 : DaySchedule :=
  ⟨some ([true, true].set 1 (!(([true, true] : List Bool).getD 1 false))),
    "normal"⟩

def c8dm : DateMap := [("2025-01-01", c8day)]

def c8dm2 : DateMap := [("2025-01-01", c8day2)]

def c8c : Cache := [("github", [("GPV1", c8dm)])]

def c8d : Cache := [("github", [("GPV1", c8dm2)])]

/-- Witness for C8: swapping the two source keys leaves the caches
equal; flipping slot 1 of a timeline makes them differ. -/
theorem C8_change_detection_witness :
    cacheEq c8a c8b = true ∧ cacheEq c8c c8d = false :=
  ⟨C8_change_detection.1 c8a c8b (by decide)
      (⟨c8a, List.forall₂_same.mpr (fun p _ => ⟨rfl, groupMapPerm_refl p.2⟩),
        List.Perm.swap ("yasno", []) ("github", c8gm) []⟩ : cachePerm c8a c8b),
    C8_change_detection.2 c8c c8d "github" "GPV1" "2025-01-01"
      [("GPV1", c8dm)] [("GPV1", c8dm2)] c8dm c8dm2 c8day c8day2
      [true, true] 1
      (by decide) (by decide) (by decide) (by decide) (by decide)
      (by decide) rfl (by decide) rfl⟩

end LightMonitor
